import Mathlib

/-!
# DirectoryReadme (notebook/static/tree/js/directoryreadme.js)

A shallow embedding of the README preview panel of the notebook file browser:
the selection of a README-like file (`find_readme`), the staleness check
(`needs_update`), the orchestration (`fetch_readme` with its two promise
callbacks), the event handlers of `bind_events`, and the two view operations
`clear_readme` and `draw_readme`.

JavaScript strings are embedded as `String` (inspected through their character
list; the patterns and needles of this file are ASCII, so that characters may
stand for code units), objects as records that carry their own identity
(`ref`), `null` as `none`, a modification time as an integer, and a thrown
`TypeError` as `Except.error`. An asynchronous call is embedded as a value
returned next to the new state, its callback as a function of its own.
-/

namespace DirectoryReadme

/-! ## Data model -/

/-- A contents model object, as found in `notebook_list.model_list.content` or
as resolved by `contents.get`. The objects are never mutated by this file, so
an object is its identity `ref` together with its properties and the strict
equality `===` of two objects is equality of these records. -/
structure File where
  ref : Nat
  name : String
  path : String
  type : String
  last_modified : Int
  format : Option String
  content : String
deriving DecidableEq, Repr

/-! ## The regular expressions of `readme_order`

The four literals use literal characters, the one-member negated class
`[^\.]`, grouping, alternation, `?` and `*` applied to the class, between `^`
and `$`, with the flag `i` (and neither `m` nor `u`). -/

/-- A pattern character or class: `c`, `\.` or `[^c]`. -/
inductive CharSet where
  | char (c : Char)
  | notChar (c : Char)
deriving DecidableEq, Repr

/-- The body of a regular expression literal, between `^` and `$`. -/
inductive Pattern where
  | empty
  | atom (cs : CharSet)
  | seq (a b : Pattern)
  | alt (a b : Pattern)
  | opt (a : Pattern)
  | star (cs : CharSet)
deriving DecidableEq, Repr

/-- Canonicalize of the ignore-case matching without the unicode flag. It
upper-cases a character, but never maps a non-ASCII character to an ASCII one,
so against the ASCII pattern characters of `readme_order` it is the ASCII
upper-casing. -/
def Canonicalize (c : Char) : Char := c.toUpper

/-- The character-set matcher under the flag `i`. -/
def CharSet.test : CharSet → Char → Bool
  | .char c, a => Canonicalize a == Canonicalize c
  | .notChar c, a => !(Canonicalize a == Canonicalize c)

/-- The greedy loop of `[..]*`: take one more character of the class and go on,
or else hand the rest to the continuation. -/
def starMatcher (cs : CharSet) : List Char → (List Char → Bool) → Bool
  | [], k => k []
  | a :: t, k => (cs.test a && starMatcher cs t k) || k (a :: t)

/-- The backtracking matcher of a pattern: `matcher p s k` holds when `p`
matches a prefix of the input `s` whose remainder the continuation `k`
accepts, alternatives being tried in the order of the pattern. -/
def matcher : Pattern → List Char → (List Char → Bool) → Bool
  | .empty, s, k => k s
  | .atom _, [], _ => false
  | .atom cs, a :: t, k => cs.test a && k t
  | .seq a b, s, k => matcher a s (fun t => matcher b t k)
  | .alt a b, s, k => matcher a s k || matcher b s k
  | .opt a, s, k => matcher a s k || k s
  | .star cs, s, k => starMatcher cs s k

/-- The sequence of literal characters `w`. -/
def lit : List Char → Pattern
  | [] => .empty
  | c :: w => .seq (.atom (.char c)) (lit w)

/-- The truth value of `name.match(/^p$/i)`: without the flag `m` the
assertion `^` holds at index 0 only and `$` at the end of the input only. -/
def Pattern.test (p : Pattern) (name : String) : Bool :=
  matcher p name.data (fun t => t.isEmpty)

/-- The literal `/^readme\.(md|markdown)$/i`. -/
def readme_md : Pattern :=
  .seq (lit "readme".data)
    (.seq (.atom (.char '.')) (.alt (lit "md".data) (lit "markdown".data)))

/-- The literal `/^about\.(md|markdown)$/i`. -/
def about_md : Pattern :=
  .seq (lit "about".data)
    (.seq (.atom (.char '.')) (.alt (lit "md".data) (lit "markdown".data)))

/-- The literal `/^readme(\.[^\.]*)?$/i`. -/
def readme_any : Pattern :=
  .seq (lit "readme".data)
    (.opt (.seq (.atom (.char '.')) (.star (.notChar '.'))))

/-- The literal `/^about(\.[^\.]*)?$/i`. -/
def about_any : Pattern :=
  .seq (lit "about".data)
    (.opt (.seq (.atom (.char '.')) (.star (.notChar '.'))))

/-- The field `this.readme_order` set by the constructor. -/
def readme_order : List Pattern :=
  [readme_md, about_md, readme_any, about_any]

/-! ## Selection -/

/-- The search of `find_readme` for an arbitrary pattern list: the outer loop
over the patterns, the inner loop over the listing, returning the first entry
of type `"file"` whose name matches, or `null`. -/
def find_readme_in (order : List Pattern) (files_in_directory : List File) :
    Option File :=
  order.findSome? fun readme_name =>
    files_in_directory.find? fun file =>
      file.type == "file" && readme_name.test file.name

/-- The method `DirectoryReadme.prototype.find_readme`, the listing being
`this.notebook_list.model_list.content`. -/
def find_readme (files_in_directory : List File) : Option File :=
  find_readme_in readme_order files_in_directory

/-! ## The panel -/

/-- What the element `this.page` holds. -/
inductive Page where
  /-- the empty `div` built by `init_readme` -/
  | empty
  /-- after `page.html($("<pre>").text(text))`: a `pre` element whose text
  content is `text`, taken literally -/
  | pre (text : String)
  /-- after `page.html(html)` in the callback of `markdown.render` -/
  | html (html : String)
deriving DecidableEq, Repr

/-- A call `markdown.render(content, {with_math, sanitize}, callback)` whose
callback has not run yet. -/
structure RenderCall where
  content : String
  with_math : Bool
  sanitize : Bool
deriving DecidableEq, Repr

/-- The arguments of
`utils.url_path_join(base_url, "edit", utils.encode_uri_components(path))`,
the value given to the `href` attribute of the title. -/
structure EditUrl where
  base_url : String
  path : String
deriving DecidableEq, Repr

/-- The mutable part of a `DirectoryReadme` instance: the field
`drawn_readme`, whether `this.element` is shown, the title link and the page. -/
structure State where
  drawn_readme : Option File
  shown : Bool
  title_href : Option EditUrl
  title_text : String
  page : Page
deriving DecidableEq, Repr

/-- The instance left by the constructor: `drawn_readme = null`, and
`init_readme` hides the element and builds an empty title link and page. -/
def init : State :=
  { drawn_readme := none, shown := false, title_href := none,
    title_text := "", page := .empty }

/-- The method `DirectoryReadme.prototype.clear_readme`; the argument is `none` when the
method is called without one. An object is truthy, so `drawn_readme || null`
is the argument itself when there is one. -/
def clear_readme (self : State) (drawn_readme : Option File) : State :=
  { self with drawn_readme := drawn_readme, shown := false }

/-- The function `endsWith` of the module; `native` tells whether strings
have a method `endsWith`. In the fallback `substring` clamps a negative start
to 0, as the truncated subtraction does. -/
def endsWith (native : Bool) (haystack needle : List Char) : Bool :=
  if native then needle.isSuffixOf haystack
  else haystack.drop (haystack.length - needle.length) == needle

/-- The method `String.prototype.toLowerCase` on the ASCII letters and on the two other
characters whose lower case contains an ASCII letter, the Kelvin sign and the
dotted capital I. The remaining characters are left as they are: their lower
case holds no ASCII character, so whether the result ends with an ASCII needle
does not depend on them. -/
def toLowerCase (s : List Char) : List Char :=
  s.flatMap fun c =>
    if c.toNat = 0x212A then ['k']
    else if c.toNat = 0x130 then ['i', Char.ofNat 0x307]
    else [c.toLower]

/-- The call `content.replace(/\r\n/g, '\n')`: the matches are found from left
to right, each search resuming after the previous match. -/
def replaceCRLF : List Char → List Char
  | '\r' :: '\n' :: rest => '\n' :: replaceCRLF rest
  | c :: rest => c :: replaceCRLF rest
  | [] => []

/-- The test of `draw_readme` that selects the Markdown renderer. -/
def is_markdown (native : Bool) (name : String) : Bool :=
  endsWith native (toLowerCase name.data) ".md".data
    || endsWith native (toLowerCase name.data) ".markdown".data

/-- The method `DirectoryReadme.prototype.draw_readme`. The second component is the call
of `markdown.render` it makes, if any; the page is then filled by
`render_callback` when that call completes. -/
def draw_readme (native : Bool) (base_url : String) (self : State) (file : File) :
    State × Option RenderCall :=
  let self1 : State :=
    { self with
      drawn_readme := some file
      shown := true
      title_href := some { base_url := base_url, path := file.path }
      title_text := file.name }
  if is_markdown native file.name then
    (self1, some { content := file.content, with_math := true, sanitize := true })
  else
    ({ self1 with page := .pre (String.mk (replaceCRLF file.content.data)) }, none)

/-- The callback given to `markdown.render` by `draw_readme`:
`page.html(html)`, followed by `utils.typeset(page)`. -/
def render_callback (self : State) (html : String) : State :=
  { self with page := .html html }

/-! ## Staleness check and orchestration -/

/-- The value of `this.draw_readme.last_modified` read by `needs_update`:
`draw_readme` is the method defined above, a function object on which no
property `last_modified` is ever set, so the value is `undefined` (`none`). -/
def draw_readme_last_modified : Option Int := none

/-- The operator `<` on values that are a number or `undefined` (`none`):
`undefined` converts to `NaN` and every comparison with `NaN` is false. -/
def lessThan : Option Int → Option Int → Bool
  | some a, some b => decide (a < b)
  | _, _ => false

/-- The method `DirectoryReadme.prototype.needs_update`: the strict equality of
the displayed record and the candidate, the test that one of them is null, the
comparison of the paths, and the comparison of the modification times as the
source writes it. -/
def needs_update (self : State) (readme : Option File) : Bool :=
  if self.drawn_readme = readme then false
  else
    match self.drawn_readme, readme with
    | some drawn_readme, some readme =>
      if drawn_readme.path ≠ readme.path then true
      else if lessThan draw_readme_last_modified (some readme.last_modified) then true
      else false
    | _, _ => true

/-- The synchronous part of `DirectoryReadme.prototype.fetch_readme` on the
listing `files_in_directory`. The second component is the path of the call
`contents.get(readme.path, {type: 'file'})` it issues, if any. -/
def fetch_readme (self : State) (files_in_directory : List File) :
    State × Option String :=
  let readme := find_readme files_in_directory
  if needs_update self readme then
    match readme with
    | none => (clear_readme self none, none)
    | some readme => (self, some readme.path)
  else (self, none)

/-- The first callback of the promise in `fetch_readme`, run when
`contents.get` resolves with `file`. -/
def get_resolved (native : Bool) (base_url : String) (self : State) (file : File) :
    State × Option RenderCall :=
  if file.format ≠ some "text" then (clear_readme self (some file), none)
  else draw_readme native base_url self file

/-- The second callback of the promise in `fetch_readme`, run when
`contents.get` is rejected. -/
def get_rejected (self : State) : State :=
  clear_readme self none

/-- What a handler can throw. -/
inductive JSError where
  | TypeError
deriving DecidableEq, Repr

/-- The handler of `notebook_deleted.NotebookList` installed by `bind_events`.
Reading the property `path` of `null` throws a `TypeError`. -/
def notebook_deleted (self : State) (path : String) : Except JSError State :=
  match self.drawn_readme with
  | none => .error .TypeError
  | some drawn_readme =>
    if drawn_readme.path = path then .ok (clear_readme self none)
    else .ok self

/-! ## The event model -/

/-- The parts of the surroundings that the component reads. -/
structure Host where
  native : Bool
  base_url : String
deriving DecidableEq, Repr

/-- The component together with the asynchronous calls it has issued and that
have not completed: the paths of the pending `contents.get` calls and the
pending `markdown.render` calls, oldest first. -/
structure Machine where
  self : State
  gets : List String
  renders : List RenderCall
deriving DecidableEq, Repr

/-- What the event loop can deliver. -/
inductive Event where
  /-- the event `draw_notebook_list.NotebookList`, the current listing being
  `content` -/
  | draw_notebook_list (content : List File)
  /-- the event `notebook_deleted.NotebookList` carrying `path` -/
  | notebook_deleted (path : String)
  /-- the pending `contents.get` number `i` resolves with `file` -/
  | get_resolved (i : Nat) (file : File)
  /-- the pending `contents.get` number `i` is rejected -/
  | get_rejected (i : Nat)
  /-- the pending `markdown.render` number `i` calls back with `html` -/
  | rendered (i : Nat) (html : String)
deriving DecidableEq, Repr

/-- The system after construction. -/
def Machine.init : Machine := { self := DirectoryReadme.init, gets := [], renders := [] }

/-- One turn of the event loop. A completion event for a call that is not
pending does nothing, and a handler that throws leaves the component as it
was before the event. -/
def step (h : Host) (s : Machine) : Event → Machine
  | .draw_notebook_list content =>
    let r := fetch_readme s.self content
    { s with self := r.1, gets := s.gets ++ r.2.toList }
  | .notebook_deleted path =>
    match notebook_deleted s.self path with
    | .ok self => { s with self := self }
    | .error _ => s
  | .get_resolved i file =>
    if i < s.gets.length then
      let r := get_resolved h.native h.base_url s.self file
      { self := r.1, gets := s.gets.eraseIdx i, renders := s.renders ++ r.2.toList }
    else s
  | .get_rejected i =>
    if i < s.gets.length then
      { s with self := get_rejected s.self, gets := s.gets.eraseIdx i }
    else s
  | .rendered i html =>
    if i < s.renders.length then
      { s with self := render_callback s.self html, renders := s.renders.eraseIdx i }
    else s

/-- The system reached from construction by a sequence of events. -/
def run (h : Host) (events : List Event) : Machine :=
  events.foldl (step h) Machine.init

/-! ## Specification vocabulary -/

/-- The words matched by a pattern, read off the pattern without reference to
the order in which the matcher tries the alternatives. -/
def Lang : Pattern → List Char → Prop
  | .empty, s => s = []
  | .atom cs, s => ∃ a, s = [a] ∧ cs.test a = true
  | .seq a b, s => ∃ u v, s = u ++ v ∧ Lang a u ∧ Lang b v
  | .alt a b, s => Lang a s ∨ Lang b s
  | .opt a, s => Lang a s ∨ s = []
  | .star cs, s => ∀ a ∈ s, cs.test a = true

/-- The case-folded form of a name, the ASCII letters being lower-cased; no
character outside ASCII folds to a letter of "readme" or of "about". -/
def case_fold (s : List Char) : List Char := s.map Char.toLower

/-- Nothing, or one dot followed by a suffix that holds no dot. -/
def single_extension (ext : List Char) : Prop :=
  ext = [] ∨ ∃ suffix, ext = '.' :: suffix ∧ '.' ∉ suffix

/-- A name whose case-folded form is "readme" or "about", optionally followed
by one dot and a suffix without a dot. -/
def readme_like (name : List Char) : Prop :=
  ∃ base ext, name = base ++ ext ∧
    (case_fold base = "readme".data ∨ case_fold base = "about".data) ∧
    single_extension ext

/-- The pair carriage return, line feed. -/
def CRLF : List Char := ['\r', '\n']

/-- A text in which no carriage return is followed by a line feed. -/
def crlf_free (s : List Char) : Prop := ¬ CRLF <:+: s

/-- The lower-cased name ends with ".md" or ".markdown". -/
def lower_name_is_markdown (name : String) : Prop :=
  ".md".data <:+ toLowerCase name.data ∨ ".markdown".data <:+ toLowerCase name.data

/-- The characters that stand for the letter `l` of a needle: the letter
itself, its upper case, and for `k` the Kelvin sign as well, whose lower case
is `k`. -/
def letter_variants (l : Char) : List Char :=
  [l, l.toUpper] ++ (if l = 'k' then [Char.ofNat 0x212A] else [])

/-- The name ends with the letters of the needle, each in any of its
variants. -/
def ends_with_letters (name needle : List Char) : Prop :=
  ∃ suf, suf <:+ name ∧ List.Forall₂ (fun c l => c ∈ letter_variants l) suf needle

/-- A dot or a lower-case ASCII letter. -/
def plain (l : Char) : Prop := l = '.' ∨ (97 ≤ l.toNat ∧ l.toNat ≤ 122)

/-- The name ends with a dot and the letters m, d, or with a dot and the
letters m, a, r, k, d, o, w, n, each letter in lower or in upper case (the
Kelvin sign standing for a `k`). It is stated on the name as given, without
any lower-casing function. -/
def markdown_name (name : String) : Prop :=
  ends_with_letters name.data ".md".data ∨ ends_with_letters name.data ".markdown".data

/-- A shown panel displays a record: equivalently, a null displayed state
implies a hidden panel. -/
def Shown_has_record (s : Machine) : Prop :=
  s.self.shown = true → s.self.drawn_readme ≠ none

/-! ## Sample data -/

/-- An entry of type "file" as a listing holds it, without format or content. -/
def entry (ref : Nat) (name path : String) (last_modified : Int) : File :=
  { ref := ref, name := name, path := path, type := "file",
    last_modified := last_modified, format := none, content := "" }

/-- A record as `contents.get` resolves it. -/
def fetched (ref : Nat) (name path : String) (last_modified : Int)
    (format content : String) : File :=
  { ref := ref, name := name, path := path, type := "file",
    last_modified := last_modified, format := some format, content := content }

/-- A host with native `endsWith`, served at the root. -/
def host : Host := { native := true, base_url := "/" }

/-- The displayed record of the example of C2: path `p`, modification time 5. -/
def stale_current : File := fetched 1 "README.md" "p" 5 "text" "old"

/-- The candidate of the example of C2: the listing entry of the same path
`p`, modification time 10. -/
def newer_candidate : File := entry 2 "README.md" "p" 10

/-- The README of a directory `docs`, as listed. -/
def docs_readme : File := entry 3 "README.md" "docs/README.md" 5

/-- The README of `docs`, as fetched with text format. -/
def docs_readme_text : File := fetched 4 "README.md" "docs/README.md" 5 "text" "# Docs"

/-- The README of `docs`, as fetched with a binary format. -/
def docs_readme_base64 : File := fetched 5 "README.md" "docs/README.md" 5 "base64" "IyBEb2Nz"

/-- The about file of a directory `lib`, as listed. -/
def lib_about : File := entry 6 "about.markdown" "lib/about.markdown" 7

/-- The about file of `lib`, as fetched with text format. -/
def lib_about_text : File := fetched 7 "about.markdown" "lib/about.markdown" 7 "text" "# Lib"

/-- A plain text file, as fetched. -/
def notes_txt : File := fetched 8 "notes.txt" "notes.txt" 9 "text" "Line1\r\nLine2"

/-- A Markdown file whose name is in upper case, as fetched. -/
def readme_upper : File := fetched 9 "README.MD" "README.MD" 3 "text" "# Hi"

/-! ## Selection: lemmas -/

theorem find_readme_in_eq_none (order : List Pattern) (files : List File) :
    find_readme_in order files = none ↔
      ∀ f ∈ files, f.type = "file" → ∀ p ∈ order, p.test f.name = false := by
  unfold find_readme_in
  simp only [List.findSome?_eq_none_iff, List.find?_eq_none, Bool.and_eq_true,
    beq_iff_eq, not_and, Bool.not_eq_true]
  exact ⟨fun h f hf ht p hp => h p hp f hf ht, fun h p hp f hf ht => h f hf ht p hp⟩

theorem find_readme_in_eq_some (order : List Pattern) (files : List File) (e : File) :
    find_readme_in order files = some e ↔
      ∃ before p after fs gs,
        order = before ++ p :: after ∧ files = fs ++ e :: gs ∧
        e.type = "file" ∧ p.test e.name = true ∧
        (∀ q ∈ before, ∀ f ∈ files, f.type = "file" → q.test f.name = false) ∧
        (∀ f ∈ fs, f.type = "file" → p.test f.name = false) := by
  unfold find_readme_in
  rw [List.findSome?_eq_some_iff]
  constructor
  · rintro ⟨before, p, after, ho, hfind, hnone⟩
    rw [List.find?_eq_some] at hfind
    obtain ⟨hp, fs, gs, hf, hfs⟩ := hfind
    simp only [Bool.and_eq_true, beq_iff_eq] at hp
    refine ⟨before, p, after, fs, gs, ho, hf, hp.1, hp.2, ?_, ?_⟩
    · intro q hq f hf ht
      have := hnone q hq
      simp only [List.find?_eq_none, Bool.and_eq_true, beq_iff_eq, not_and,
        Bool.not_eq_true] at this
      exact this f hf ht
    · intro f hf ht
      have := hfs f hf
      simpa [ht] using this
  · rintro ⟨before, p, after, fs, gs, ho, hf, ht, hp, hbefore, hfs⟩
    refine ⟨before, p, after, ho, ?_, ?_⟩
    · rw [List.find?_eq_some]
      refine ⟨by simp [ht, hp], fs, gs, hf, ?_⟩
      intro f hf
      by_cases h : f.type = "file"
      · simp [h, hfs f hf h]
      · simp [h]
    · intro q hq
      simp only [List.find?_eq_none, Bool.and_eq_true, beq_iff_eq, not_and,
        Bool.not_eq_true]
      exact fun f hf ht => hbefore q hq f hf ht


/-! ## Lemmas: ASCII case mapping -/

theorem toNat_ofNat_small (n : Nat) (h : n < 128) : (Char.ofNat n).toNat = n := by
  have hv : n.isValidChar := Or.inl (by omega)
  simp only [Char.ofNat, hv, dif_pos, Char.ofNatAux, Char.toNat]
  simp [UInt32.toNat]

theorem toNat_toUpper (a : Char) :
    a.toUpper.toNat = if 97 ≤ a.toNat ∧ a.toNat ≤ 122 then a.toNat - 32 else a.toNat := by
  unfold Char.toUpper
  simp only [ge_iff_le]
  split
  · rw [toNat_ofNat_small]; omega
  · rfl

theorem toNat_toLower (a : Char) :
    a.toLower.toNat = if 65 ≤ a.toNat ∧ a.toNat ≤ 90 then a.toNat + 32 else a.toNat := by
  unfold Char.toLower
  simp only [ge_iff_le]
  split
  · rw [toNat_ofNat_small]; omega
  · rfl

theorem toNat_inj (a c : Char) : a.toNat = c.toNat ↔ a = c := by
  constructor
  · intro h
    rw [← Char.ofNat_toNat a, ← Char.ofNat_toNat c, h]
  · intro h; rw [h]

theorem toUpper_eq_iff (a c : Char) : a.toUpper = c.toUpper ↔ a.toLower = c.toLower := by
  rw [← toNat_inj, ← toNat_inj a.toLower, toNat_toUpper, toNat_toUpper, toNat_toLower,
    toNat_toLower]
  split <;> split <;> split <;> split <;> omega

theorem toUpper_eq_dot (a : Char) : a.toUpper = '.'.toUpper ↔ a = '.' := by
  rw [← toNat_inj, ← toNat_inj a, toNat_toUpper, toNat_toUpper]
  have : ('.' : Char).toNat = 46 := rfl
  rw [this]
  split
  · simp; omega
  · simp

/-! ## Lemmas: the matcher -/

theorem starMatcher_iff (cs : CharSet) (s : List Char) (k : List Char → Bool) :
    starMatcher cs s k = true ↔
      ∃ u v, s = u ++ v ∧ (∀ a ∈ u, cs.test a = true) ∧ k v = true := by
  induction s with
  | nil =>
    simp only [starMatcher]
    constructor
    · intro h; exact ⟨[], [], rfl, by simp, h⟩
    · rintro ⟨u, v, huv, _, hk⟩
      have : v = [] := by
        have := congrArg List.length huv
        simp at this
        exact List.length_eq_zero.1 (by omega)
      rw [← this]; exact hk
  | cons a t ih =>
    simp only [starMatcher, Bool.or_eq_true, Bool.and_eq_true, ih]
    constructor
    · rintro (⟨ha, u, v, rfl, hu, hk⟩ | hk)
      · refine ⟨a :: u, v, rfl, ?_, hk⟩
        intro b hb
        rcases List.mem_cons.1 hb with rfl | hb
        · exact ha
        · exact hu b hb
      · exact ⟨[], a :: t, rfl, by simp, hk⟩
    · rintro ⟨u, v, huv, hu, hk⟩
      cases u with
      | nil =>
        right
        simp at huv
        rw [huv]; exact hk
      | cons b u =>
        left
        simp at huv
        obtain ⟨rfl, rfl⟩ := huv
        exact ⟨hu a (by simp), u, v, rfl, fun c hc => hu c (by simp [hc]), hk⟩

theorem matcher_iff (p : Pattern) :
    ∀ (s : List Char) (k : List Char → Bool),
      matcher p s k = true ↔ ∃ u v, s = u ++ v ∧ Lang p u ∧ k v = true := by
  induction p with
  | empty =>
    intro s k
    simp only [matcher, Lang]
    constructor
    · intro h; exact ⟨[], s, rfl, rfl, h⟩
    · rintro ⟨u, v, rfl, rfl, hk⟩; exact hk
  | atom cs =>
    intro s k
    cases s with
    | nil =>
      simp only [matcher, Lang]
      constructor
      · intro h; cases h
      · rintro ⟨u, v, huv, ⟨a, rfl, _⟩, _⟩
        simp at huv
    | cons a t =>
      simp only [matcher, Lang, Bool.and_eq_true]
      constructor
      · rintro ⟨ha, hk⟩
        exact ⟨[a], t, rfl, ⟨a, rfl, ha⟩, hk⟩
      · rintro ⟨u, v, huv, ⟨b, rfl, hb⟩, hk⟩
        simp at huv
        obtain ⟨rfl, rfl⟩ := huv
        exact ⟨hb, hk⟩
  | seq a b iha ihb =>
    intro s k
    simp only [matcher, Lang]
    rw [iha]
    constructor
    · rintro ⟨u, v, rfl, hu, hv⟩
      rw [ihb] at hv
      obtain ⟨u', v', rfl, hu', hk⟩ := hv
      exact ⟨u ++ u', v', by simp, ⟨u, u', rfl, hu, hu'⟩, hk⟩
    · rintro ⟨w, v', rfl, ⟨u, u', rfl, hu, hu'⟩, hk⟩
      refine ⟨u, u' ++ v', by simp, hu, ?_⟩
      rw [ihb]
      exact ⟨u', v', rfl, hu', hk⟩
  | alt a b iha ihb =>
    intro s k
    simp only [matcher, Lang, Bool.or_eq_true, iha, ihb]
    constructor
    · rintro (⟨u, v, h1, h2, h3⟩ | ⟨u, v, h1, h2, h3⟩)
      · exact ⟨u, v, h1, Or.inl h2, h3⟩
      · exact ⟨u, v, h1, Or.inr h2, h3⟩
    · rintro ⟨u, v, h1, (h2 | h2), h3⟩
      · exact Or.inl ⟨u, v, h1, h2, h3⟩
      · exact Or.inr ⟨u, v, h1, h2, h3⟩
  | opt a iha =>
    intro s k
    simp only [matcher, Lang, Bool.or_eq_true, iha]
    constructor
    · rintro (⟨u, v, h1, h2, h3⟩ | hk)
      · exact ⟨u, v, h1, Or.inl h2, h3⟩
      · exact ⟨[], s, rfl, Or.inr rfl, hk⟩
    · rintro ⟨u, v, h1, (h2 | rfl), h3⟩
      · exact Or.inl ⟨u, v, h1, h2, h3⟩
      · right
        rw [h1]; exact h3
  | star cs =>
    intro s k
    simp only [matcher, Lang]
    exact starMatcher_iff cs s k

theorem test_iff (p : Pattern) (name : String) : p.test name = true ↔ Lang p name.data := by
  unfold Pattern.test
  rw [matcher_iff]
  constructor
  · rintro ⟨u, v, h, hu, hv⟩
    have : v = [] := by simpa using hv
    rw [h, this, List.append_nil]; exact hu
  · intro h
    exact ⟨name.data, [], by simp, h, rfl⟩

theorem Lang_lit (w s : List Char) :
    Lang (lit w) s ↔ s.map Char.toLower = w.map Char.toLower := by
  induction w generalizing s with
  | nil => simp [lit, Lang]
  | cons c w ih =>
    simp only [lit, Lang, CharSet.test, Canonicalize, beq_iff_eq, toUpper_eq_iff, ih]
    constructor
    · rintro ⟨u, v, rfl, ⟨a, rfl, ha⟩, hv⟩
      simp [ha, hv]
    · intro h
      cases s with
      | nil => simp at h
      | cons a t =>
        simp at h
        exact ⟨[a], t, rfl, ⟨a, rfl, h.1⟩, h.2⟩

theorem Lang_seq (a b : Pattern) (s : List Char) :
    Lang (.seq a b) s ↔ ∃ u v, s = u ++ v ∧ Lang a u ∧ Lang b v := Iff.rfl

theorem Lang_alt (a b : Pattern) (s : List Char) :
    Lang (.alt a b) s ↔ Lang a s ∨ Lang b s := Iff.rfl

theorem Lang_dot (s : List Char) : Lang (.atom (.char '.')) s ↔ s = ['.'] := by
  simp only [Lang, CharSet.test, Canonicalize, beq_iff_eq, toUpper_eq_dot]
  constructor
  · rintro ⟨a, rfl, rfl⟩; rfl
  · rintro rfl; exact ⟨'.', rfl, rfl⟩

theorem Lang_extension (v : List Char) :
    Lang (.opt (.seq (.atom (.char '.')) (.star (.notChar '.')))) v ↔ single_extension v := by
  simp only [Lang, CharSet.test, Canonicalize, beq_iff_eq, toUpper_eq_dot, single_extension,
    Bool.not_eq_true', beq_eq_false_iff_ne, ne_eq]
  constructor
  · rintro (⟨u, w, rfl, ⟨a, rfl, rfl⟩, hw⟩ | rfl)
    · right
      exact ⟨w, rfl, fun hmem => hw _ hmem rfl⟩
    · left; rfl
  · rintro (rfl | ⟨w, rfl, hw⟩)
    · right; rfl
    · left
      refine ⟨['.'], w, rfl, ⟨'.', rfl, rfl⟩, ?_⟩
      intro c hc hcd
      exact hw (hcd ▸ hc)

theorem Lang_any (word s : List Char) :
    Lang (.seq (lit word) (.opt (.seq (.atom (.char '.')) (.star (.notChar '.'))))) s ↔
      ∃ base ext, s = base ++ ext ∧ case_fold base = case_fold word ∧
        single_extension ext := by
  simp only [Lang_seq, Lang_lit, Lang_extension, case_fold]

theorem Lang_md (word s : List Char) :
    Lang (.seq (lit word)
        (.seq (.atom (.char '.')) (.alt (lit "md".data) (lit "markdown".data)))) s ↔
      ∃ base ext, s = base ++ '.' :: ext ∧ case_fold base = case_fold word ∧
        (case_fold ext = "md".data ∨ case_fold ext = "markdown".data) := by
  simp only [Lang_seq, Lang_alt, Lang_dot, Lang_lit, case_fold]
  constructor
  · rintro ⟨base, v, rfl, hb, u, ext, rfl, rfl, hext⟩
    exact ⟨base, ext, rfl, hb, hext⟩
  · rintro ⟨base, ext, rfl, hb, hext⟩
    exact ⟨base, '.' :: ext, rfl, hb, ['.'], ext, rfl, rfl, hext⟩

theorem no_dot_of_case_fold (ext w : List Char) (h : case_fold ext = w) (hw : '.' ∉ w) :
    '.' ∉ ext := by
  intro hmem
  apply hw
  rw [← h]
  unfold case_fold
  exact List.mem_map.2 ⟨'.', hmem, rfl⟩

theorem md_subsumed (word s : List Char)
    (h : Lang (.seq (lit word)
        (.seq (.atom (.char '.')) (.alt (lit "md".data) (lit "markdown".data)))) s) :
    Lang (.seq (lit word) (.opt (.seq (.atom (.char '.')) (.star (.notChar '.'))))) s := by
  rw [Lang_md] at h
  rw [Lang_any]
  obtain ⟨base, ext, rfl, hb, hext⟩ := h
  refine ⟨base, '.' :: ext, rfl, hb, Or.inr ⟨ext, rfl, ?_⟩⟩
  rcases hext with h | h
  · exact no_dot_of_case_fold ext _ h (by decide)
  · exact no_dot_of_case_fold ext _ h (by decide)

/-! ## Lemmas: line endings and suffixes -/

theorem replaceCRLF_cons (c : Char) (rest : List Char)
    (h : ¬ (c = '\r' ∧ rest.head? = some '\n')) :
    replaceCRLF (c :: rest) = c :: replaceCRLF rest := by
  rw [replaceCRLF.eq_2]
  intro rest' hc hr
  exact h ⟨hc, by simp [hr]⟩


theorem crlf_free_nil : crlf_free [] := by
  unfold crlf_free CRLF
  simp

theorem crlf_free_cons (c : Char) (s : List Char) :
    crlf_free (c :: s) ↔ ¬ (c = '\r' ∧ s.head? = some '\n') ∧ crlf_free s := by
  unfold crlf_free CRLF
  rw [List.infix_cons_iff, not_or]
  apply and_congr_left
  intro _
  apply not_congr
  cases s with
  | nil => simp
  | cons d t => simp [List.cons_prefix_cons, eq_comm]

theorem intercalate_one (sep p : List Char) : List.intercalate sep [p] = p := by
  simp [List.intercalate, List.intersperse]

theorem intercalate_two (sep p q : List Char) (qs : List (List Char)) :
    List.intercalate sep (p :: q :: qs) = p ++ (sep ++ List.intercalate sep (q :: qs)) := by
  simp [List.intercalate, List.intersperse]

theorem intercalate_cons_head (sep : List Char) (c : Char) (p : List Char)
    (ps : List (List Char)) :
    List.intercalate sep ((c :: p) :: ps) = c :: List.intercalate sep (p :: ps) := by
  cases ps with
  | nil => simp [intercalate_one]
  | cons q qs => simp [intercalate_two]

theorem replaceCRLF_free (p : List Char) (h : crlf_free p) : replaceCRLF p = p := by
  induction p with
  | nil => rfl
  | cons c p ih =>
    rw [crlf_free_cons] at h
    rw [replaceCRLF_cons c p h.1, ih h.2]

theorem replaceCRLF_piece (p rest : List Char) (h : crlf_free p) :
    replaceCRLF (p ++ (CRLF ++ rest)) = p ++ ('\n' :: replaceCRLF rest) := by
  induction p with
  | nil => exact replaceCRLF.eq_1 rest
  | cons c p ih =>
    rw [crlf_free_cons] at h
    have hc : ¬ (c = '\r' ∧ (p ++ (CRLF ++ rest)).head? = some '\n') := by
      cases p with
      | nil => simp [CRLF]
      | cons d t => simpa using h.1
    rw [List.cons_append, replaceCRLF_cons c _ hc, ih h.2, List.cons_append]

theorem replaceCRLF_intercalate (pieces : List (List Char))
    (h : ∀ p ∈ pieces, crlf_free p) :
    replaceCRLF (List.intercalate CRLF pieces) = List.intercalate ['\n'] pieces := by
  induction pieces with
  | nil => rfl
  | cons p ps ih =>
    cases ps with
    | nil =>
      rw [intercalate_one, intercalate_one]
      exact replaceCRLF_free p (h p (by simp))
    | cons q qs =>
      rw [intercalate_two, intercalate_two, replaceCRLF_piece p _ (h p (by simp)),
        ih (fun r hr => h r (by simp [hr]))]
      rfl

theorem exists_pieces (s : List Char) :
    ∃ p ps, (∀ q ∈ p :: ps, crlf_free q) ∧ s = List.intercalate CRLF (p :: ps) := by
  induction s using replaceCRLF.induct with
  | case1 rest ih =>
    obtain ⟨p, ps, hfree, hs⟩ := ih
    refine ⟨[], p :: ps, ?_, ?_⟩
    · intro q hq
      rcases List.mem_cons.1 hq with rfl | hq
      · exact crlf_free_nil
      · exact hfree q hq
    · rw [intercalate_two, ← hs]; rfl
  | case2 c rest hc ih =>
    obtain ⟨p, ps, hfree, hs⟩ := ih
    refine ⟨c :: p, ps, ?_, ?_⟩
    · intro q hq
      rcases List.mem_cons.1 hq with rfl | hq
      · rw [crlf_free_cons]
        refine ⟨?_, hfree p (by simp)⟩
        rintro ⟨h1, h2⟩
        cases p with
        | nil => simp at h2
        | cons d t =>
          simp at h2
          subst h2
          rw [intercalate_cons_head] at hs
          exact hc _ h1 hs
      · exact hfree q (by simp [hq])
    · rw [intercalate_cons_head, ← hs]
  | case3 => exact ⟨[], [], by simp [crlf_free_nil], by simp [intercalate_one]⟩

theorem endsWith_iff (native : Bool) (haystack needle : List Char) :
    endsWith native haystack needle = true ↔ needle <:+ haystack := by
  unfold endsWith
  cases native
  · simp only [Bool.false_eq_true, if_false, beq_iff_eq]
    rw [List.suffix_iff_eq_drop]
    exact eq_comm
  · simp only [if_true]
    exact List.isSuffixOf_iff_suffix

theorem is_markdown_iff (native : Bool) (name : String) :
    is_markdown native name = true ↔ lower_name_is_markdown name := by
  unfold is_markdown lower_name_is_markdown
  rw [Bool.or_eq_true, endsWith_iff, endsWith_iff]

/-! ## Lemmas: lower-casing -/

theorem toLowerCase_append (a b : List Char) :
    toLowerCase (a ++ b) = toLowerCase a ++ toLowerCase b := by
  simp [toLowerCase]

theorem toLowerCase_one (c : Char) :
    (c = Char.ofNat 0x212A ∧ toLowerCase [c] = ['k']) ∨
    (c = Char.ofNat 0x130 ∧ toLowerCase [c] = ['i', Char.ofNat 0x307]) ∨
    (c.toNat ≠ 0x212A ∧ c.toNat ≠ 0x130 ∧ toLowerCase [c] = [c.toLower]) := by
  by_cases h1 : c.toNat = 0x212A
  · left
    refine ⟨(toNat_inj _ _).1 (by rw [h1]; rfl), ?_⟩
    simp [toLowerCase, h1]
  · by_cases h2 : c.toNat = 0x130
    · right; left
      refine ⟨(toNat_inj _ _).1 (by rw [h2]; rfl), ?_⟩
      simp [toLowerCase, h2]
    · right; right
      refine ⟨h1, h2, ?_⟩
      simp [toLowerCase, h1, h2]

theorem mem_letter_variants (c l : Char) :
    c ∈ letter_variants l ↔
      c.toNat = l.toNat ∨ c.toNat = l.toUpper.toNat ∨ (l.toNat = 107 ∧ c.toNat = 0x212A) := by
  have hk : l = 'k' ↔ l.toNat = 107 := by
    rw [← toNat_inj]; exact Iff.rfl
  have hK : c = Char.ofNat 0x212A ↔ c.toNat = 0x212A := by
    rw [← toNat_inj]; exact Iff.rfl
  unfold letter_variants
  by_cases h : l = 'k'
  · simp only [h, if_true, List.mem_append, List.mem_cons, List.mem_singleton,
      List.not_mem_nil, or_false, ← toNat_inj c, hK]
    have : ('k' : Char).toNat = 107 := rfl
    simp [this, or_assoc]
  · simp only [h, if_false, List.mem_append, List.mem_cons, List.mem_singleton,
      List.not_mem_nil, or_false, ← toNat_inj c]
    have : ¬ l.toNat = 107 := fun h' => h (hk.2 h')
    simp [this]

theorem plain_toNat (l : Char) (hl : plain l) :
    l.toNat = 46 ∨ (97 ≤ l.toNat ∧ l.toNat ≤ 122) := by
  rcases hl with rfl | h
  · left; rfl
  · right; exact h

theorem toLowerCase_one_last (c l : Char) (hl : plain l) (rest : List Char) (ns : List Char) :
    (l :: ns) <+: (toLowerCase [c]).reverse ++ rest ↔
      c ∈ letter_variants l ∧ ns <+: rest := by
  rw [mem_letter_variants, toNat_toUpper]
  have hp := plain_toNat l hl
  rcases toLowerCase_one c with ⟨hc, h⟩ | ⟨hc, h⟩ | ⟨h1, h2, h⟩
  · rw [h]
    have hcn : c.toNat = 0x212A := by rw [hc]; rfl
    simp only [List.reverse_cons, List.reverse_nil, List.nil_append, List.singleton_append,
      List.cons_prefix_cons]
    apply and_congr_left
    intro _
    rw [← toNat_inj]
    have : ('k' : Char).toNat = 107 := rfl
    rw [this, hcn]
    split <;> omega
  · rw [h]
    have hcn : c.toNat = 0x130 := by rw [hc]; rfl
    simp only [List.reverse_cons, List.reverse_nil, List.nil_append, List.singleton_append,
      List.cons_append, List.cons_prefix_cons]
    rw [← toNat_inj]
    have : (Char.ofNat 0x307).toNat = 0x307 := rfl
    rw [this, hcn]
    constructor
    · rintro ⟨h, _⟩; omega
    · rintro ⟨h, _⟩
      exfalso
      split at h <;> omega
  · rw [h]
    simp only [List.reverse_cons, List.reverse_nil, List.nil_append, List.singleton_append,
      List.cons_prefix_cons]
    apply and_congr_left
    intro _
    rw [← toNat_inj, toNat_toLower]
    split <;> split <;> omega

theorem suffix_toLowerCase_rev (needle : List Char) (hn : ∀ l ∈ needle, plain l) :
    ∀ name : List Char,
      needle <+: (toLowerCase name.reverse).reverse ↔
        ∃ suf, suf <+: name ∧ List.Forall₂ (fun c l => c ∈ letter_variants l) suf needle := by
  induction needle with
  | nil =>
    intro name
    simp only [List.nil_prefix, true_iff]
    exact ⟨[], List.nil_prefix, List.Forall₂.nil⟩
  | cons l ns ih =>
    intro name
    cases name with
    | nil =>
      simp only [List.reverse_nil, toLowerCase, List.flatMap_nil, List.prefix_nil,
        List.cons_ne_nil, false_iff]
      rintro ⟨suf, hs, hf⟩
      rw [hs] at hf
      cases hf
    | cons c t =>
      rw [List.reverse_cons, toLowerCase_append, List.reverse_append,
        toLowerCase_one_last c l (hn l (by simp)), ih (fun x hx => hn x (by simp [hx])) t]
      constructor
      · rintro ⟨hc, suf, hs, hf⟩
        exact ⟨c :: suf, by simpa [List.cons_prefix_cons] using hs, List.Forall₂.cons hc hf⟩
      · rintro ⟨suf, hs, hf⟩
        cases hf with
        | cons hc hf =>
          rw [List.cons_prefix_cons] at hs
          obtain ⟨rfl, hs⟩ := hs
          exact ⟨hc, _, hs, hf⟩

theorem suffix_toLowerCase (needle name : List Char) (hn : ∀ l ∈ needle, plain l) :
    needle <:+ toLowerCase name ↔ ends_with_letters name needle := by
  unfold ends_with_letters
  rw [← List.reverse_prefix]
  have h := suffix_toLowerCase_rev needle.reverse
    (fun l hl => hn l (List.mem_reverse.1 hl)) name.reverse
  rw [List.reverse_reverse] at h
  rw [h]
  constructor
  · rintro ⟨suf, hs, hf⟩
    refine ⟨suf.reverse, ?_, ?_⟩
    · rw [← List.reverse_prefix, List.reverse_reverse]; exact hs
    · rw [← List.forall₂_reverse_iff, List.reverse_reverse]; exact hf
  · rintro ⟨suf, hs, hf⟩
    refine ⟨suf.reverse, ?_, ?_⟩
    · rw [List.reverse_prefix]; exact hs
    · rw [List.forall₂_reverse_iff]; exact hf

theorem lower_name_iff_markdown_name (name : String) :
    lower_name_is_markdown name ↔ markdown_name name := by
  unfold lower_name_is_markdown markdown_name
  rw [suffix_toLowerCase ".md".data name.data (by unfold plain; decide),
    suffix_toLowerCase ".markdown".data name.data (by unfold plain; decide)]

/-! ## Lemmas: staleness check and orchestration -/

theorem lessThan_undefined (x : Option Int) : lessThan draw_readme_last_modified x = false := by
  cases x <;> rfl

/-- With two present records of equal path the answer of `needs_update` is
false, whatever the modification times. -/
theorem needs_update_same_path (self : State) (drawn readme : File)
    (hd : self.drawn_readme = some drawn) (hp : drawn.path = readme.path) :
    needs_update self (some readme) = false := by
  unfold needs_update
  rw [hd]
  by_cases h : some drawn = some readme
  · simp [h]
  · simp [h, hp, lessThan_undefined]

theorem draw_readme_fields (native : Bool) (base_url : String) (self : State) (file : File) :
    (draw_readme native base_url self file).1.drawn_readme = some file ∧
    (draw_readme native base_url self file).1.shown = true := by
  unfold draw_readme
  split <;> simp

theorem get_resolved_drawn (native : Bool) (base_url : String) (self : State) (file : File) :
    (get_resolved native base_url self file).1.drawn_readme = some file := by
  unfold get_resolved
  split
  · rfl
  · exact (draw_readme_fields native base_url self file).1

theorem fetch_readme_shown (self : State) (content : List File) :
    (fetch_readme self content).1.shown = true →
      (fetch_readme self content).1 = self := by
  simp only [fetch_readme]
  cases find_readme content with
  | none => cases needs_update self none <;> simp [clear_readme]
  | some r => cases needs_update self (some r) <;> simp

theorem step_Shown_has_record (h : Host) (s : Machine) (e : Event)
    (hs : Shown_has_record s) : Shown_has_record (step h s e) := by
  unfold Shown_has_record at *
  cases e with
  | draw_notebook_list content =>
    intro hshown
    have := fetch_readme_shown s.self content hshown
    simp only [step] at hshown ⊢
    rw [this] at hshown ⊢
    exact hs hshown
  | notebook_deleted path =>
    simp only [step, notebook_deleted]
    split
    · rename_i self heq
      split at heq
      · cases heq
      · split at heq
        · cases heq; simp [clear_readme]
        · cases heq; exact hs
    · exact hs
  | get_resolved i file =>
    simp only [step]
    split
    · intro _
      simp [get_resolved_drawn]
    · exact hs
  | get_rejected i =>
    simp only [step]
    split
    · simp [get_rejected, clear_readme]
    · exact hs
  | rendered i html =>
    simp only [step]
    split
    · simpa [render_callback] using hs
    · exact hs

theorem foldl_Shown_has_record (h : Host) (events : List Event) :
    ∀ s, Shown_has_record s → Shown_has_record (events.foldl (step h) s) := by
  induction events with
  | nil => intro s hs; exact hs
  | cons e es ih => intro s hs; exact ih _ (step_Shown_has_record h s e hs)

theorem run_Shown_has_record (h : Host) (events : List Event) :
    Shown_has_record (run h events) :=
  foldl_Shown_has_record h events _ (by intro hc; cases hc)


/-! ## Lemmas: the four patterns -/

theorem readme_any_iff (name : String) :
    readme_any.test name = true ↔
      ∃ base ext, name.data = base ++ ext ∧ case_fold base = "readme".data ∧
        single_extension ext := by
  rw [test_iff]
  exact Lang_any "readme".data name.data

theorem about_any_iff (name : String) :
    about_any.test name = true ↔
      ∃ base ext, name.data = base ++ ext ∧ case_fold base = "about".data ∧
        single_extension ext := by
  rw [test_iff]
  exact Lang_any "about".data name.data

theorem readme_md_any (name : String) (h : readme_md.test name = true) :
    readme_any.test name = true := by
  rw [test_iff] at h ⊢
  exact md_subsumed "readme".data name.data h

theorem about_md_any (name : String) (h : about_md.test name = true) :
    about_any.test name = true := by
  rw [test_iff] at h ⊢
  exact md_subsumed "about".data name.data h

theorem readme_order_any (name : String) :
    (∃ p ∈ readme_order, p.test name = true) ↔
      (readme_any.test name = true ∨ about_any.test name = true) := by
  constructor
  · rintro ⟨p, hp, ht⟩
    simp only [readme_order, List.mem_cons, List.mem_singleton, List.not_mem_nil,
      or_false] at hp
    rcases hp with rfl | rfl | rfl | rfl
    · exact Or.inl (readme_md_any name ht)
    · exact Or.inr (about_md_any name ht)
    · exact Or.inl ht
    · exact Or.inr ht
  · rintro (h | h)
    · exact ⟨readme_any, by simp [readme_order], h⟩
    · exact ⟨about_any, by simp [readme_order], h⟩

/-! ## The claims -/

/-- C1. `find_readme` returns the entry `e` of type "file" that matches a
pattern `p` of `readme_order` such that no entry of type "file" matches a
pattern placed before `p`, and such that no entry of type "file" placed before
`e` in the listing matches `p`; it returns null exactly when no entry of type
"file" matches any pattern; what it returns is an entry of the listing of type
"file"; a listing made of a file README.md and a file about.markdown yields
README.md in either order; and from any listing that holds a file README.md
the entry returned matches the first pattern. -/
theorem find_readme_spec (files : List File) :
    (∀ e, find_readme files = some e ↔
      ∃ before p after fs gs,
        readme_order = before ++ p :: after ∧ files = fs ++ e :: gs ∧
        e.type = "file" ∧ p.test e.name = true ∧
        (∀ q ∈ before, ∀ f ∈ files, f.type = "file" → q.test f.name = false) ∧
        (∀ f ∈ fs, f.type = "file" → p.test f.name = false)) ∧
    (find_readme files = none ↔
      ∀ f ∈ files, f.type = "file" → ∀ p ∈ readme_order, p.test f.name = false) ∧
    (∀ e, find_readme files = some e → e ∈ files ∧ e.type = "file") ∧
    (∀ a b : File, a.type = "file" → a.name = "README.md" →
      b.type = "file" → b.name = "about.markdown" →
      find_readme [a, b] = some a ∧ find_readme [b, a] = some a) ∧
    (∀ a ∈ files, a.type = "file" → a.name = "README.md" →
      ∃ e, find_readme files = some e ∧ readme_md.test e.name = true) := by
  refine ⟨fun e => find_readme_in_eq_some _ _ e, find_readme_in_eq_none _ _, ?_, ?_, ?_⟩
  · intro e he
    obtain ⟨_, _, _, fs, gs, _, hf, ht, _⟩ := (find_readme_in_eq_some _ _ e).1 he
    exact ⟨by simp [hf], ht⟩
  · intro a b hat han hbt hbn
    have h1 : readme_md.test a.name = true := by rw [han]; decide
    have h2 : readme_md.test b.name = false := by rw [hbn]; decide
    constructor
    · simp [find_readme, find_readme_in, readme_order, List.findSome?_cons, List.find?_cons,
        hat, h1]
    · simp [find_readme, find_readme_in, readme_order, List.findSome?_cons, List.find?_cons,
        hat, hbt, h1, h2]
  · intro a ha hat han
    have h1 : readme_md.test a.name = true := by rw [han]; decide
    cases hfr : find_readme files with
    | none =>
      have := (find_readme_in_eq_none readme_order files).1 hfr a ha hat readme_md
        (by simp [readme_order])
      rw [h1] at this
      cases this
    | some e =>
      obtain ⟨before, p, after, fs, gs, ho, _, _, hp, hbefore, _⟩ :=
        (find_readme_in_eq_some readme_order files e).1 hfr
      refine ⟨e, rfl, ?_⟩
      cases before with
      | nil =>
        have hpe : readme_md = p := by
          simp only [readme_order, List.nil_append, List.cons.injEq] at ho
          exact ho.1
        rw [hpe]; exact hp
      | cons q qs =>
        have hq : readme_md = q := by
          simp only [readme_order, List.cons_append, List.cons.injEq] at ho
          exact ho.1
        have := hbefore q (by simp) a ha hat
        rw [← hq, h1] at this
        cases this

theorem find_readme_spec_witness :
    find_readme [docs_readme, lib_about] = some docs_readme ∧
    find_readme [lib_about, docs_readme] = some docs_readme :=
  (find_readme_spec []).2.2.2.1 docs_readme lib_about rfl rfl rfl rfl

/-- C2. With the record of path `p` and modification time 5 displayed, the
candidate of path `p` and modification time 10, a distinct object, is strictly
newer, and `needs_update` answers false: the modification time is read from the
method `draw_readme` instead of the field `drawn_readme`. -/
theorem needs_update_newer_is_false :
    stale_current ≠ newer_candidate ∧
    stale_current.path = newer_candidate.path ∧
    stale_current.last_modified < newer_candidate.last_modified ∧
    needs_update { init with drawn_readme := some stale_current } (some newer_candidate)
      = false := by
  decide

/-- C3. With nothing displayed the handler of a deletion throws a `TypeError`
for every path, instead of completing. -/
theorem notebook_deleted_null_throws (self : State) (path : String) :
    notebook_deleted { self with drawn_readme := none } path = .error .TypeError := by
  rfl

/-- C6. In every state reached from construction, the three failure outcomes
of `fetch_readme` leave the panel hidden: on a listing with no matching file
the panel is hidden and the displayed state is null afterwards (and no fetch
is issued); a pending fetch that is rejected leaves the panel hidden and the
displayed state null; a pending fetch that resolves with a format other than
"text" leaves the panel hidden; and a null displayed state implies a hidden
panel. -/
theorem fetch_failures_hide (h : Host) (events : List Event) (content : List File) :
    (find_readme content = none →
      (step h (run h events) (.draw_notebook_list content)).self.shown = false ∧
      (step h (run h events) (.draw_notebook_list content)).self.drawn_readme = none ∧
      (step h (run h events) (.draw_notebook_list content)).gets = (run h events).gets) ∧
    (∀ i, i < (step h (run h events) (.draw_notebook_list content)).gets.length →
      (step h (step h (run h events) (.draw_notebook_list content))
        (.get_rejected i)).self.shown = false ∧
      (step h (step h (run h events) (.draw_notebook_list content))
        (.get_rejected i)).self.drawn_readme = none) ∧
    (∀ i file, i < (step h (run h events) (.draw_notebook_list content)).gets.length →
      file.format ≠ some "text" →
      (step h (step h (run h events) (.draw_notebook_list content))
        (.get_resolved i file)).self.shown = false) ∧
    ((run h events).self.drawn_readme = none → (run h events).self.shown = false) := by
  refine ⟨?_, ?_, ?_, ?_⟩
  · intro hnone
    have hinv := run_Shown_has_record h events
    unfold Shown_has_record at hinv
    simp only [step, fetch_readme, hnone]
    by_cases hd : (run h events).self.drawn_readme = none
    · have hsh : (run h events).self.shown = false := by
        cases hb : (run h events).self.shown
        · rfl
        · exact absurd hd (hinv hb)
      simp [needs_update, hd, hsh]
    · have : needs_update (run h events).self none = true := by
        cases hc : (run h events).self.drawn_readme with
        | none => exact absurd hc hd
        | some d => simp [needs_update, hc]
      simp [this, clear_readme]
  · intro i hi
    generalize step h (run h events) (.draw_notebook_list content) = s1 at hi ⊢
    simp [step, hi, get_rejected, clear_readme]
  · intro i file hi hf
    generalize step h (run h events) (.draw_notebook_list content) = s1 at hi ⊢
    simp [step, hi, get_resolved, hf, clear_readme]
  · intro hd
    have hinv := run_Shown_has_record h events
    unfold Shown_has_record at hinv
    cases hb : (run h events).self.shown
    · rfl
    · exact absurd hd (hinv hb)


theorem fetch_failures_hide_witness :
    (step host (step host (run host []) (.draw_notebook_list [docs_readme]))
      (.get_resolved 0 docs_readme_base64)).self.shown = false :=
  (fetch_failures_hide host [] [docs_readme]).2.2.1 0 docs_readme_base64
    (by decide) (by decide)

/-- C4. From a state with no fetch pending, when `fetch_readme` on a listing
issues a fetch and that fetch resolves, with any format, to a record whose
path is the requested one, a further `fetch_readme` on the same listing issues
no fetch and changes nothing; when the format is not "text" the panel is
hidden and the displayed state is the fetched record. -/
theorem refetch_same_listing (h : Host) (s : Machine) (content : List File)
    (path : String) (file : File)
    (hpending : s.gets = [])
    (hissued : (step h s (.draw_notebook_list content)).gets = [path])
    (hpath : file.path = path) :
    step h (step h (step h s (.draw_notebook_list content)) (.get_resolved 0 file))
        (.draw_notebook_list content)
      = step h (step h s (.draw_notebook_list content)) (.get_resolved 0 file) ∧
    (file.format ≠ some "text" →
      (step h (step h s (.draw_notebook_list content)) (.get_resolved 0 file)).self.shown
        = false ∧
      (step h (step h s (.draw_notebook_list content))
        (.get_resolved 0 file)).self.drawn_readme = some file) := by
  have hfind : ∃ readme, find_readme content = some readme ∧ readme.path = path := by
    simp only [step, hpending, List.nil_append, fetch_readme] at hissued
    cases hr : find_readme content with
    | none =>
      rw [hr] at hissued
      cases hn : needs_update s.self none <;> simp [hn] at hissued
    | some readme =>
      rw [hr] at hissued
      cases hn : needs_update s.self (some readme) <;> simp [hn] at hissued
      exact ⟨readme, rfl, hissued⟩
  obtain ⟨readme, hr, hrp⟩ := hfind
  generalize hs1 : step h s (.draw_notebook_list content) = s1 at hissued ⊢
  have h0 : 0 < s1.gets.length := by simp [hissued]
  constructor
  · have hd := get_resolved_drawn h.native h.base_url s1.self file
    have hnu := needs_update_same_path _ file readme hd (by rw [hpath, hrp])
    simp only [step, h0, if_true, fetch_readme, hr, hnu]
    simp
  · intro hf
    simp [step, h0, get_resolved, hf, clear_readme]


theorem refetch_same_listing_witness :
    (Machine.init.gets = [] ∧
      (step host Machine.init (.draw_notebook_list [docs_readme])).gets = ["docs/README.md"] ∧
      docs_readme_base64.path = "docs/README.md") ∧
    (step host
        (step host (step host Machine.init (.draw_notebook_list [docs_readme]))
          (.get_resolved 0 docs_readme_base64))
        (.draw_notebook_list [docs_readme])
      = step host (step host Machine.init (.draw_notebook_list [docs_readme]))
          (.get_resolved 0 docs_readme_base64) ∧
    (docs_readme_base64.format ≠ some "text" →
      (step host (step host Machine.init (.draw_notebook_list [docs_readme]))
        (.get_resolved 0 docs_readme_base64)).self.shown = false ∧
      (step host (step host Machine.init (.draw_notebook_list [docs_readme]))
        (.get_resolved 0 docs_readme_base64)).self.drawn_readme
        = some docs_readme_base64)) :=
  ⟨⟨rfl, by decide, rfl⟩,
    refetch_same_listing host Machine.init [docs_readme] "docs/README.md"
      docs_readme_base64 rfl (by decide) rfl⟩

/-- C5. `needs_update` is false when both the displayed record and the
candidate are null and when the candidate is the displayed record itself, true
when exactly one of them is null, and true when both are present with
different paths, whatever their modification times. -/
theorem needs_update_presence (self : State) :
    (self.drawn_readme = none → needs_update self none = false) ∧
    (∀ r, self.drawn_readme = some r → needs_update self (some r) = false) ∧
    (self.drawn_readme = none → ∀ r, needs_update self (some r) = true) ∧
    (∀ d, self.drawn_readme = some d → needs_update self none = true) ∧
    (∀ d r, self.drawn_readme = some d → d.path ≠ r.path →
      needs_update self (some r) = true) := by
  refine ⟨?_, ?_, ?_, ?_, ?_⟩
  · intro h; simp [needs_update, h]
  · intro r h; simp [needs_update, h]
  · intro h r; simp [needs_update, h]
  · intro d h; simp [needs_update, h]
  · intro d r h hp
    have hne : ¬ (some d = some r) := by
      intro he
      exact hp (by rw [Option.some.inj he])
    simp [needs_update, h, hne, hp]


theorem needs_update_presence_witness :
    needs_update { init with drawn_readme := some docs_readme_text } (some lib_about)
      = true :=
  (needs_update_presence { init with drawn_readme := some docs_readme_text }).2.2.2.2
    docs_readme_text lib_about rfl (by decide)

/-- C7. With a record displayed, a deletion of path `p` clears the panel
(panel hidden, displayed state null) when `p` is the path of the displayed
record, and otherwise leaves the component, title and page included, and the
pending calls as they were. -/
theorem notebook_deleted_displayed (h : Host) (s : Machine) (d : File) (p : String)
    (hd : s.self.drawn_readme = some d) :
    (d.path = p →
      notebook_deleted s.self p = .ok (clear_readme s.self none) ∧
      (step h s (.notebook_deleted p)).self.shown = false ∧
      (step h s (.notebook_deleted p)).self.drawn_readme = none) ∧
    (d.path ≠ p →
      notebook_deleted s.self p = .ok s.self ∧
      step h s (.notebook_deleted p) = s) := by
  constructor
  · intro hp
    simp [notebook_deleted, step, hd, hp, clear_readme]
  · intro hp
    simp [notebook_deleted, step, hd, hp]


theorem notebook_deleted_displayed_witness :
    (run host [.draw_notebook_list [docs_readme],
      .get_resolved 0 docs_readme_text]).self.drawn_readme = some docs_readme_text ∧
    step host
        (run host [.draw_notebook_list [docs_readme], .get_resolved 0 docs_readme_text])
        (.notebook_deleted "docs/notes.txt")
      = run host [.draw_notebook_list [docs_readme], .get_resolved 0 docs_readme_text] ∧
    (step host
        (run host [.draw_notebook_list [docs_readme], .get_resolved 0 docs_readme_text])
        (.notebook_deleted "docs/README.md")).self.shown = false :=
  ⟨by decide,
    ((notebook_deleted_displayed host
      (run host [.draw_notebook_list [docs_readme], .get_resolved 0 docs_readme_text])
      docs_readme_text "docs/notes.txt" (by decide)).2 (by decide)).2,
    ((notebook_deleted_displayed host
      (run host [.draw_notebook_list [docs_readme], .get_resolved 0 docs_readme_text])
      docs_readme_text "docs/README.md" (by decide)).1 (by decide)).2.1⟩

/-- C8. `draw_readme` sets the displayed state to the record, shows the panel
and sets the title text to the name of the file. It calls the Markdown
renderer exactly when the name ends with a dot and the letters of "md" or of
"markdown" in lower or upper case, which is exactly when the lower-cased name
ends with ".md" or ".markdown"; the call passes the content with math and
sanitisation on and leaves the page to the callback. Otherwise it makes no
such call and the page is a literal text: the content being any sequence of
pieces free of CRLF separated by CRLF, the text is the same pieces separated
by LF, and every content is such a sequence. The name notes.txt with the
content "Line1\r\nLine2" gives the literal text "Line1\nLine2"; the names
README.MD, Guide.Markdown, notes.mD and readme.md go to the renderer, the names
README, md, notes.mdx, README.md.txt and markdown do not. -/
theorem draw_readme_spec (native : Bool) (base_url : String) (self : State) (file : File) :
    (draw_readme native base_url self file).1.drawn_readme = some file ∧
    (draw_readme native base_url self file).1.shown = true ∧
    (draw_readme native base_url self file).1.title_text = file.name ∧
    (lower_name_is_markdown file.name →
      (draw_readme native base_url self file).2
        = some { content := file.content, with_math := true, sanitize := true } ∧
      (draw_readme native base_url self file).1.page = self.page) ∧
    (¬ lower_name_is_markdown file.name →
      (draw_readme native base_url self file).2 = none ∧
      (∀ pieces : List (List Char), (∀ p ∈ pieces, crlf_free p) →
        file.content.data = List.intercalate CRLF pieces →
        (draw_readme native base_url self file).1.page
          = .pre (String.mk (List.intercalate ['\n'] pieces))) ∧
      (∃ pieces : List (List Char), (∀ p ∈ pieces, crlf_free p) ∧
        file.content.data = List.intercalate CRLF pieces)) ∧
    (file.name = "notes.txt" → file.content = "Line1\r\nLine2" →
      (draw_readme native base_url self file).2 = none ∧
      (draw_readme native base_url self file).1.page = .pre "Line1\nLine2") ∧
    (lower_name_is_markdown file.name ↔ markdown_name file.name) ∧
    ((draw_readme native base_url self file).2
        = some { content := file.content, with_math := true, sanitize := true } ↔
      markdown_name file.name) ∧
    ((draw_readme native base_url self file).2 = none ↔ ¬ markdown_name file.name) ∧
    (file.name = "README.MD" ∨ file.name = "Guide.Markdown" ∨ file.name = "notes.mD" ∨
        file.name = "readme.md" →
      (draw_readme native base_url self file).2
        = some { content := file.content, with_math := true, sanitize := true }) ∧
    (file.name = "README" ∨ file.name = "md" ∨ file.name = "notes.mdx" ∨
        file.name = "README.md.txt" ∨ file.name = "markdown" →
      (draw_readme native base_url self file).2 = none ∧
      (draw_readme native base_url self file).1.page
        = .pre (String.mk (replaceCRLF file.content.data))) := by
  have hcall : is_markdown native file.name = true →
      (draw_readme native base_url self file).2
        = some { content := file.content, with_math := true, sanitize := true } ∧
      (draw_readme native base_url self file).1.page = self.page := by
    intro h
    simp [draw_readme, h]
  have hpre : is_markdown native file.name = false →
      (draw_readme native base_url self file).2 = none ∧
      (draw_readme native base_url self file).1.page
        = .pre (String.mk (replaceCRLF file.content.data)) := by
    intro h
    simp [draw_readme, h]
  have hnot : ¬ lower_name_is_markdown file.name → is_markdown native file.name = false := by
    intro hmd
    cases hb : is_markdown native file.name
    · rfl
    · exact absurd ((is_markdown_iff native file.name).1 hb) hmd
  have hiff := lower_name_iff_markdown_name file.name
  refine ⟨(draw_readme_fields native base_url self file).1,
    (draw_readme_fields native base_url self file).2, ?_, ?_, ?_, ?_, hiff, ?_, ?_, ?_, ?_⟩
  · unfold draw_readme
    split <;> rfl
  · intro hmd
    exact hcall ((is_markdown_iff native file.name).2 hmd)
  · intro hmd
    have h := hpre (hnot hmd)
    refine ⟨h.1, ?_, ?_⟩
    · intro pieces hfree hcontent
      rw [h.2, hcontent, replaceCRLF_intercalate pieces hfree]
    · obtain ⟨p, ps, hfree, hs⟩ := exists_pieces file.content.data
      exact ⟨p :: ps, hfree, hs⟩
  · intro hname hcontent
    have h : is_markdown native file.name = false := by
      rw [hname]
      cases native <;> decide
    have h2 := hpre h
    rw [hcontent] at h2
    exact ⟨h2.1, by rw [h2.2]; decide⟩
  · rw [← hiff]
    constructor
    · intro h
      by_contra hmd
      rw [(hpre (hnot hmd)).1] at h
      cases h
    · intro hmd
      exact (hcall ((is_markdown_iff native file.name).2 hmd)).1
  · rw [← hiff]
    constructor
    · intro h hmd
      rw [(hcall ((is_markdown_iff native file.name).2 hmd)).1] at h
      cases h
    · intro hmd
      exact (hpre (hnot hmd)).1
  · intro hname
    have h : is_markdown native file.name = true := by
      rcases hname with h | h | h | h <;> rw [h] <;> cases native <;> decide
    exact (hcall h).1
  · intro hname
    have h : is_markdown native file.name = false := by
      rcases hname with h | h | h | h | h <;> rw [h] <;> cases native <;> decide
    exact hpre h

theorem draw_readme_spec_witness :
    ((draw_readme true "/" init notes_txt).2 = none ∧
      (draw_readme true "/" init notes_txt).1.page = .pre "Line1\nLine2") ∧
    (draw_readme false "/" init readme_upper).2
      = some { content := "# Hi", with_math := true, sanitize := true } :=
  ⟨(draw_readme_spec true "/" init notes_txt).2.2.2.2.2.1 rfl rfl,
    (draw_readme_spec false "/" init readme_upper).2.2.2.2.2.2.2.2.2.1 (Or.inl rfl)⟩

/-- C9, counterexample. The listing of `docs` is drawn and its README
requested; before that fetch completes the listing of `lib` is drawn, its
about file requested, fetched and displayed. The completion of the first fetch
then fires and replaces the displayed record and the title by the README of
`docs`. -/
theorem stale_completion_overwrites :
    (run host [.draw_notebook_list [docs_readme], .draw_notebook_list [lib_about],
      .get_resolved 1 lib_about_text]).gets = ["docs/README.md"] ∧
    (run host [.draw_notebook_list [docs_readme], .draw_notebook_list [lib_about],
      .get_resolved 1 lib_about_text]).self.drawn_readme = some lib_about_text ∧
    (run host [.draw_notebook_list [docs_readme], .draw_notebook_list [lib_about],
      .get_resolved 1 lib_about_text]).self.shown = true ∧
    (run host [.draw_notebook_list [docs_readme], .draw_notebook_list [lib_about],
      .get_resolved 1 lib_about_text,
      .get_resolved 0 docs_readme_text]).self.drawn_readme = some docs_readme_text ∧
    (run host [.draw_notebook_list [docs_readme], .draw_notebook_list [lib_about],
      .get_resolved 1 lib_about_text,
      .get_resolved 0 docs_readme_text]).self.title_text = "README.md" ∧
    (run host [.draw_notebook_list [docs_readme], .draw_notebook_list [],
      .get_resolved 0 docs_readme_text]).self.shown = true ∧
    (run host [.draw_notebook_list [docs_readme],
      .draw_notebook_list []]).self.shown = false := by
  decide

/-- C9, amended. A completion of a pending fetch is applied whatever events
were processed since the fetch was issued: resolved with the format "text" it
makes the fetched record the displayed state and shows the panel, resolved
with another format it makes the fetched record the displayed state and hides
the panel, rejected it resets the displayed state to null and hides the
panel. -/
theorem completion_applies_always (h : Host) (events : List Event) (i : Nat) (file : File)
    (hi : i < (run h events).gets.length) :
    (step h (run h events) (.get_resolved i file)).self.drawn_readme = some file ∧
    (step h (run h events) (.get_resolved i file)).self.shown
      = decide (file.format = some "text") ∧
    (step h (run h events) (.get_rejected i)).self.drawn_readme = none ∧
    (step h (run h events) (.get_rejected i)).self.shown = false := by
  refine ⟨?_, ?_, ?_, ?_⟩
  · simp [step, hi, get_resolved_drawn]
  · simp only [step, hi, if_true, get_resolved]
    by_cases hf : file.format = some "text"
    · simp [hf, (draw_readme_fields h.native h.base_url (run h events).self file).2]
    · simp [hf, clear_readme]
  · simp [step, hi, get_rejected, clear_readme]
  · simp [step, hi, get_rejected, clear_readme]

theorem completion_applies_always_witness :
    0 < (run host [.draw_notebook_list [docs_readme],
      .draw_notebook_list []]).gets.length ∧
    (step host (run host [.draw_notebook_list [docs_readme], .draw_notebook_list []])
      (.get_resolved 0 docs_readme_text)).self.drawn_readme = some docs_readme_text ∧
    (step host (run host [.draw_notebook_list [docs_readme], .draw_notebook_list []])
      (.get_resolved 0 docs_readme_text)).self.shown
      = decide (docs_readme_text.format = some "text") ∧
    (step host (run host [.draw_notebook_list [docs_readme], .draw_notebook_list []])
      (.get_rejected 0)).self.drawn_readme = none ∧
    (step host (run host [.draw_notebook_list [docs_readme], .draw_notebook_list []])
      (.get_rejected 0)).self.shown = false :=
  ⟨by decide,
    completion_applies_always host
      [.draw_notebook_list [docs_readme], .draw_notebook_list []] 0 docs_readme_text
      (by decide)⟩

/-- C10. A name is matched by some pattern of `readme_order` exactly when its
case-folded form is "readme" or "about" optionally followed by one dot and a
suffix without a dot; a name matched by the first pattern is matched by the
third and a name matched by the second is matched by the fourth, so
`find_readme` returns null exactly when no entry of type "file" matches the
third or the fourth pattern; a file named README or readme.txt is selected
from the listing that holds it alone, and no listing makes `find_readme`
return an entry named readme.tar.gz or my_readme.md. -/
theorem readme_order_names (name : String) (files : List File) :
    ((∃ p ∈ readme_order, p.test name = true) ↔ readme_like name.data) ∧
    (readme_md.test name = true → readme_any.test name = true) ∧
    (about_md.test name = true → about_any.test name = true) ∧
    (find_readme files = none ↔
      ∀ f ∈ files, f.type = "file" →
        readme_any.test f.name = false ∧ about_any.test f.name = false) ∧
    (∀ f : File, f.type = "file" → (f.name = "README" ∨ f.name = "readme.txt") →
      find_readme [f] = some f) ∧
    (∀ e, find_readme files = some e →
      e.name ≠ "readme.tar.gz" ∧ e.name ≠ "my_readme.md") := by
  refine ⟨?_, readme_md_any name, about_md_any name, ?_, ?_, ?_⟩
  · rw [readme_order_any, readme_any_iff, about_any_iff]
    unfold readme_like
    constructor
    · rintro (⟨base, ext, h1, h2, h3⟩ | ⟨base, ext, h1, h2, h3⟩)
      · exact ⟨base, ext, h1, Or.inl h2, h3⟩
      · exact ⟨base, ext, h1, Or.inr h2, h3⟩
    · rintro ⟨base, ext, h1, (h2 | h2), h3⟩
      · exact Or.inl ⟨base, ext, h1, h2, h3⟩
      · exact Or.inr ⟨base, ext, h1, h2, h3⟩
  · unfold find_readme
    rw [find_readme_in_eq_none]
    constructor
    · intro h f hf ht
      exact ⟨h f hf ht readme_any (by simp [readme_order]),
        h f hf ht about_any (by simp [readme_order])⟩
    · intro h f hf ht p hp
      cases hb : p.test f.name
      · rfl
      · have := (readme_order_any f.name).1 ⟨p, hp, hb⟩
        rcases this with h1 | h1
        · rw [(h f hf ht).1] at h1; cases h1
        · rw [(h f hf ht).2] at h1; cases h1
  · intro f ht hn
    have h1 : readme_md.test f.name = false := by
      rcases hn with h | h <;> rw [h] <;> decide
    have h2 : about_md.test f.name = false := by
      rcases hn with h | h <;> rw [h] <;> decide
    have h3 : readme_any.test f.name = true := by
      rcases hn with h | h <;> rw [h] <;> decide
    simp [find_readme, find_readme_in, readme_order, List.findSome?_cons, List.find?_cons,
      ht, h1, h2, h3]
  · intro e he
    obtain ⟨before, p, after, _, _, ho, _, _, hp, _, _⟩ :=
      (find_readme_in_eq_some readme_order files e).1 he
    have hmem : p ∈ readme_order := by rw [ho]; simp
    have hany := (readme_order_any e.name).1 ⟨p, hmem, hp⟩
    constructor
    · intro hn
      rw [hn] at hany
      revert hany
      decide
    · intro hn
      rw [hn] at hany
      revert hany
      decide

theorem readme_order_names_witness :
    find_readme [entry 1 "readme.txt" "readme.txt" 0] =
      some (entry 1 "readme.txt" "readme.txt" 0) :=
  (readme_order_names "" []).2.2.2.2.1 (entry 1 "readme.txt" "readme.txt" 0) rfl
    (Or.inr rfl)

end DirectoryReadme
